import Mathlib

/-!
Verification development for the pipeline execution engine specified in
`spec.md`.  The repository itself only contains tutorial pipelines built on
top of the engine; the engine (node tree, state machine, scheduler, container
pool, data-store interface) is specified in the spec and modelled here from
its words.  The two functions `gen_data` and `parallelize` from
`src/steps/data.py` are embedded directly from the source.
-/

namespace ConductoModel

/-! ## Status (spec §3 "Status") -/

/-- Node status, one of pending/queued/running/done/error/skipped. -/
inductive Status
  | pending
  | queued
  | running
  | done
  | error
  | skipped
deriving DecidableEq

/-- Terminal states are done/error/skipped (spec §3). -/
def Status.isTerminal : Status → Bool
  | .done => true
  | .error => true
  | .skipped => true
  | _ => false

/-! ## Execution parameters (spec §3 "Execution Parameters") -/

/-- `same_container` mode: NEW creates a fresh shared-container scope,
INHERIT joins the nearest ancestor's scope (spec §3). -/
inductive SameContainer
  | NEW
  | INHERIT
deriving DecidableEq

/-- Modelled from the spec: the per-node execution-parameter record (§3).
A field of value `none` means "not explicitly set on this node"; such fields
are inherited from the nearest ancestor that sets them.  `skip` is a plain
flag: it is stored only where it is set and is never inherited by
resolution (spec §4.3). -/
structure Attrs where
  image : Option String := none
  env : Option (List (String × String)) := none
  cpu : Option Nat := none
  mem : Option Nat := none
  requires_docker : Option Bool := none
  same_container : Option SameContainer := none
  stop_on_error : Option Bool := none
  skip : Bool := false
  doc : Option String := none
deriving DecidableEq

/-- Modelled from the spec: walk from the node outward through its ancestor
chain and return the first explicitly set value of a parameter, else the
documented default (spec §4.1 `resolve_params`). -/
def nearest {α : Type} (f : Attrs → Option α) (d : α) : List Attrs → α
  | [] => d
  | a :: rest =>
    match f a with
    | some v => v
    | none => nearest f d rest

/-- Effective (fully resolved) execution parameters. -/
structure EffParams where
  image : String
  env : List (String × String)
  cpu : Nat
  mem : Nat
  requires_docker : Bool
  same_container : Option SameContainer
  stop_on_error : Bool
deriving DecidableEq

/-- Modelled from the spec: `resolve_params` (§4.1) — for each parameter,
the value set on the nearest ancestor (or the node itself) that defines it
explicitly, else the documented default (default image is the standard
python image, 1 cpu / 2 GB, no docker, `stop_on_error` true).  The input
chain lists the node's own attributes first, then its ancestors up to the
root; resolution is recomputed from the current chain at dispatch time. -/
def resolve_params (chain : List Attrs) : EffParams :=
  { image := nearest (fun a => a.image) "python" chain
    env := nearest (fun a => a.env) [] chain
    cpu := nearest (fun a => a.cpu) 1 chain
    mem := nearest (fun a => a.mem) 2 chain
    requires_docker := nearest (fun a => a.requires_docker) false chain
    same_container := nearest (fun a => a.same_container.map some) none chain
    stop_on_error := nearest (fun a => a.stop_on_error) true chain }

/-- Effective `stop_on_error` of a node given its attribute chain. -/
def eff_stop_on_error (chain : List Attrs) : Bool :=
  (resolve_params chain).stop_on_error

/-- Replace the `image` attribute of the chain entry at position `k`
(modelling a live "Modify" of an ancestor's image, spec §4.1). -/
def update_image : List Attrs → Nat → String → List Attrs
  | [], _, _ => []
  | a :: rest, 0, v => { a with image := some v } :: rest
  | a :: rest, k + 1, v => a :: update_image rest k v

/-! ## Node tree (spec §3 "Node") -/

/-- Modelled from the spec: the node tree (§3).  Exec nodes are leaves and
carry the exit code their payload will produce when run; Serial and Parallel
nodes carry ordered children.  (Parallel does not impose an execution order;
the list only fixes identity of the children.) -/
inductive Node
  | exec (a : Attrs) (exitCode : Nat)
  | serial (a : Attrs) (children : List Node)
  | parallel (a : Attrs) (children : List Node)

/-- The node's own (stored) attributes. -/
def Node.attrs : Node → Attrs
  | .exec a _ => a
  | .serial a _ => a
  | .parallel a _ => a

/-- The node's children (empty for Exec nodes). -/
def Node.childrenN : Node → List Node
  | .exec _ _ => []
  | .serial _ cs => cs
  | .parallel _ cs => cs

/-- Live Skip/Unskip: set the `skip` flag stored on this node only
(spec §4.3: stored only at the node where explicitly set). -/
def set_skip : Node → Bool → Node
  | .exec a c, b => .exec { a with skip := b } c
  | .serial a cs, b => .serial { a with skip := b } cs
  | .parallel a cs, b => .parallel { a with skip := b } cs

/-- Replace a container node's children (used to splice a lazily generated
subtree under its Execute placeholder, spec §4.4). -/
def set_children : Node → List Node → Node
  | .exec a c, _ => .exec a c
  | .serial a _, cs => .serial a cs
  | .parallel a _, cs => .parallel a cs

/-! ## Run results (spec §4.3 State Machine, §4.4 Scheduler) -/

/-- Result tree of one scheduler pass: the final status of every node, and
for each Exec node whether it was ever dispatched to a container.  A node
that is never dispatched keeps status `pending` forever. -/
inductive RNode
  | exec (status : Status) (dispatched : Bool)
  | serial (status : Status) (children : List RNode)
  | parallel (status : Status) (children : List RNode)

/-- Final status of the result node. -/
def RNode.rstatus : RNode → Status
  | .exec s _ => s
  | .serial s _ => s
  | .parallel s _ => s

/-- Children of the result node. -/
def RNode.childrenR : RNode → List RNode
  | .exec _ _ => []
  | .serial _ cs => cs
  | .parallel _ cs => cs

mutual

/-- The result of never dispatching a subtree: everything stays pending. -/
def pendingR : Node → RNode
  | .exec _ _ => .exec .pending false
  | .serial _ cs => .serial .pending (pendingList cs)
  | .parallel _ cs => .parallel .pending (pendingList cs)

/-- `pendingR` mapped over a list of nodes. -/
def pendingList : List Node → List RNode
  | [] => []
  | c :: rest => pendingR c :: pendingList rest

end

mutual

/-- True when nothing in the result subtree was ever dispatched and every
status is still `pending`. -/
def allPending : RNode → Bool
  | .exec s d => s == Status.pending && !d
  | .serial s cs => s == Status.pending && allPendingList cs
  | .parallel s cs => s == Status.pending && allPendingList cs

/-- `allPending` over a list of result nodes. -/
def allPendingList : List RNode → Bool
  | [] => true
  | r :: rest => allPending r && allPendingList rest

end

mutual

/-- Number of containers launched for the result subtree: one per
dispatched Exec node. -/
def dispatchCount : RNode → Nat
  | .exec _ d => if d then 1 else 0
  | .serial _ cs => dispatchCountList cs
  | .parallel _ cs => dispatchCountList cs

/-- `dispatchCount` summed over a list of result nodes. -/
def dispatchCountList : List RNode → Nat
  | [] => 0
  | r :: rest => dispatchCount r + dispatchCountList rest

end

mutual

/-- Modelled from the spec: one full scheduler run of a node (spec §4.3,
§4.4); the engine itself is not in the repository.  `chain` is the attribute
chain of the node's ancestors (nearest first).
* An Exec node with `skip` set short-circuits to skipped without a
  container; otherwise it is dispatched, exit code 0 gives done and nonzero
  gives error.
* A skipped Serial/Parallel node becomes skipped and its children are never
  dispatched (they stay pending).
* A Serial node dispatches children in declaration order; with effective
  `stop_on_error` true it stops at the first child error, leaving the later
  children pending; its status is error iff it saw a child error, else done.
* A Parallel node runs all its children regardless of errors and reports
  error iff some child erred. -/
def runNode (chain : List Attrs) : Node → RNode
  | .exec a code =>
    if a.skip then .exec .skipped false
    else .exec (if code = 0 then .done else .error) true
  | .serial a cs =>
    if a.skip then .serial .skipped (pendingList cs)
    else
      let soe := eff_stop_on_error (a :: chain)
      let res := runList (a :: chain) soe cs
      .serial (if res.2 then .error else .done) res.1
  | .parallel a cs =>
    if a.skip then .parallel .skipped (pendingList cs)
    else
      let res := runList (a :: chain) false cs
      .parallel (if res.2 then .error else .done) res.1

/-- Run a list of children in order.  `soe` is the parent's effective
`stop_on_error`: when true, the first child error stops the sequence and
the remaining children are never dispatched.  The boolean result reports
whether any dispatched child ended in error. -/
def runList (chain : List Attrs) (soe : Bool) : List Node → List RNode × Bool
  | [] => ([], false)
  | c :: rest =>
    let rc := runNode chain c
    if rc.rstatus = Status.error then
      if soe then
        (rc :: pendingList rest, true)
      else
        let rs := runList chain soe rest
        (rc :: rs.1, true)
    else
      let rs := runList chain soe rest
      (rc :: rs.1, rs.2)

end

/-! ## Basic lemmas about the run model -/

theorem pendingR_rstatus (n : Node) : (pendingR n).rstatus = Status.pending := by
  cases n <;> rfl

theorem pendingList_eq_map (cs : List Node) : pendingList cs = cs.map pendingR := by
  induction cs with
  | nil => rfl
  | cons c rest ih => simp [pendingList, ih]

mutual

theorem allPending_pendingR (n : Node) : allPending (pendingR n) = true := by
  cases n with
  | exec a c => rfl
  | serial a cs => simp [pendingR, allPending, allPendingList_pendingList cs]
  | parallel a cs => simp [pendingR, allPending, allPendingList_pendingList cs]

theorem allPendingList_pendingList (cs : List Node) :
    allPendingList (pendingList cs) = true := by
  cases cs with
  | nil => rfl
  | cons c rest =>
    simp [pendingList, allPendingList, allPending_pendingR c,
      allPendingList_pendingList rest]

end

mutual

theorem dispatchCount_pendingR (n : Node) : dispatchCount (pendingR n) = 0 := by
  cases n with
  | exec a c => rfl
  | serial a cs => simp [pendingR, dispatchCount, dispatchCountList_pendingList cs]
  | parallel a cs => simp [pendingR, dispatchCount, dispatchCountList_pendingList cs]

theorem dispatchCountList_pendingList (cs : List Node) :
    dispatchCountList (pendingList cs) = 0 := by
  cases cs with
  | nil => rfl
  | cons c rest =>
    simp [pendingList, dispatchCountList, dispatchCount_pendingR c,
      dispatchCountList_pendingList rest]

end

theorem runList_cons_error_stop (chain : List Attrs) (c : Node) (rest : List Node)
    (h : (runNode chain c).rstatus = Status.error) :
    runList chain true (c :: rest) = (runNode chain c :: pendingList rest, true) := by
  simp [runList, h]

theorem runList_cons_ok (chain : List Attrs) (soe : Bool) (c : Node) (rest : List Node)
    (h : ¬ (runNode chain c).rstatus = Status.error) :
    runList chain soe (c :: rest) =
      (runNode chain c :: (runList chain soe rest).1, (runList chain soe rest).2) := by
  simp [runList, h]

theorem runList_false_cons (chain : List Attrs) (c : Node) (rest : List Node) :
    (runList chain false (c :: rest)).1 = runNode chain c :: (runList chain false rest).1
    ∧ (runList chain false (c :: rest)).2 =
        ((runNode chain c).rstatus == Status.error || (runList chain false rest).2) := by
  by_cases h : (runNode chain c).rstatus = Status.error <;> simp [runList, h]

/-- Under `stop_on_error = true`, once some child in a serial sequence ends in
error, every later child's result subtree is fully pending (never dispatched),
and the sequence reports an error. -/
theorem runList_stop_on_error (chain : List Attrs) (cs : List Node) (i : Nat) (ri : RNode)
    (hget : ((runList chain true cs).1)[i]? = some ri)
    (herr : ri.rstatus = Status.error) :
    (∀ j r, i < j → ((runList chain true cs).1)[j]? = some r → allPending r = true)
    ∧ (runList chain true cs).2 = true := by
  induction cs generalizing i with
  | nil => simp [runList] at hget
  | cons c rest ih =>
    by_cases h : (runNode chain c).rstatus = Status.error
    · rw [runList_cons_error_stop chain c rest h] at hget ⊢
      refine ⟨?_, rfl⟩
      intro j r hij hj
      cases j with
      | zero => omega
      | succ j' =>
        rw [List.getElem?_cons_succ, pendingList_eq_map, List.getElem?_map] at hj
        cases hrest : rest[j']? with
        | none => rw [hrest] at hj; simp at hj
        | some n =>
          rw [hrest] at hj
          simp only [Option.map_some'] at hj
          cases hj
          exact allPending_pendingR n
    · rw [runList_cons_ok chain true c rest h] at hget ⊢
      cases i with
      | zero =>
        rw [List.getElem?_cons_zero] at hget
        cases hget
        exact absurd herr h
      | succ i' =>
        rw [List.getElem?_cons_succ] at hget
        obtain ⟨htail, hflag⟩ := ih i' hget
        refine ⟨?_, hflag⟩
        intro j r hij hj
        cases j with
        | zero => omega
        | succ j' =>
          rw [List.getElem?_cons_succ] at hj
          exact htail j' r (by omega) hj

/-- The root status of any scheduler run is terminal (done, error or
skipped); only descendants that were never dispatched stay pending. -/
theorem runNode_rstatus_terminal (chain : List Attrs) (n : Node) :
    ((runNode chain n).rstatus).isTerminal = true := by
  cases n with
  | exec a code =>
    by_cases h : a.skip
    · simp [runNode, h, RNode.rstatus, Status.isTerminal]
    · simp only [runNode, h, if_false, Bool.false_eq_true, RNode.rstatus]
      split <;> rfl
  | serial a cs =>
    by_cases h : a.skip
    · simp [runNode, h, RNode.rstatus, Status.isTerminal]
    · simp only [runNode, h, if_false, Bool.false_eq_true, RNode.rstatus]
      split <;> rfl
  | parallel a cs =>
    by_cases h : a.skip
    · simp [runNode, h, RNode.rstatus, Status.isTerminal]
    · simp only [runNode, h, if_false, Bool.false_eq_true, RNode.rstatus]
      split <;> rfl

theorem runList_false_mem (chain : List Attrs) (cs : List Node) :
    ∀ r ∈ (runList chain false cs).1, ∃ c, r = runNode chain c := by
  induction cs with
  | nil => simp [runList]
  | cons c rest ih =>
    rw [(runList_false_cons chain c rest).1]
    intro r hr
    rcases List.mem_cons.mp hr with h | h
    · exact ⟨c, h⟩
    · exact ih r h

theorem runList_false_flag (chain : List Attrs) (cs : List Node) :
    (runList chain false cs).2 = true ↔
      ∃ r ∈ (runList chain false cs).1, r.rstatus = Status.error := by
  induction cs with
  | nil => simp [runList]
  | cons c rest ih =>
    obtain ⟨h1, h2⟩ := runList_false_cons chain c rest
    rw [h1, h2]
    simp only [Bool.or_eq_true, beq_iff_eq, ih, List.mem_cons]
    constructor
    · rintro (h | ⟨r, hr, he⟩)
      · exact ⟨runNode chain c, Or.inl rfl, h⟩
      · exact ⟨r, Or.inr hr, he⟩
    · rintro ⟨r, hmem | hmem, he⟩
      · subst hmem; exact Or.inl he
      · exact Or.inr ⟨r, hmem, he⟩

theorem runNode_serial_run (chain : List Attrs) (a : Attrs) (cs : List Node)
    (hskip : a.skip = false) :
    runNode chain (Node.serial a cs) =
      .serial
        (if (runList (a :: chain) (eff_stop_on_error (a :: chain)) cs).2
         then .error else .done)
        (runList (a :: chain) (eff_stop_on_error (a :: chain)) cs).1 := by
  simp [runNode, hskip]

/-! ## Claim theorems: Serial semantics and skip (C1, C2, C8) -/

/-- C1: for every Serial node whose effective `stop_on_error` is true, if the
child at position `i` ends in error, then every child at a later position `j`
stays fully pending — nothing in its subtree is ever dispatched, so it never
transitions out of pending — and the Serial node's status becomes error. -/
theorem serial_stop_on_error_true_halts (chain : List Attrs) (a : Attrs)
    (cs : List Node) (i : Nat) (ri : RNode)
    (hsoe : eff_stop_on_error (a :: chain) = true)
    (hget : ((runNode chain (Node.serial a cs)).childrenR)[i]? = some ri)
    (herr : ri.rstatus = Status.error) :
    (∀ j r, i < j → ((runNode chain (Node.serial a cs)).childrenR)[j]? = some r →
        allPending r = true)
    ∧ (runNode chain (Node.serial a cs)).rstatus = Status.error := by
  by_cases hskip : a.skip = true
  · exfalso
    have hc : (runNode chain (Node.serial a cs)).childrenR = pendingList cs := by
      simp [runNode, hskip, RNode.childrenR]
    rw [hc, pendingList_eq_map, List.getElem?_map] at hget
    cases hcs : cs[i]? with
    | none => rw [hcs] at hget; simp at hget
    | some n =>
      rw [hcs] at hget
      simp only [Option.map_some'] at hget
      cases hget
      rw [pendingR_rstatus] at herr
      exact Status.noConfusion herr
  · have hs : a.skip = false := by simpa using hskip
    rw [runNode_serial_run chain a cs hs, hsoe] at hget ⊢
    simp only [RNode.childrenR] at hget
    have H := runList_stop_on_error (a :: chain) cs i ri hget herr
    refine ⟨?_, ?_⟩
    · intro j r hij hj
      simp only [RNode.childrenR] at hj
      exact H.1 j r hij hj
    · simp [RNode.rstatus, H.2]

/-- Witness for C1: in Serial[A(done), B(error), C] with default (true)
stop_on_error, child C stays fully pending and the Serial reports error. -/
theorem serial_stop_on_error_true_halts_witness :
    allPending (RNode.exec Status.pending false) = true
    ∧ (runNode []
        (Node.serial {} [Node.exec {} 0, Node.exec {} 1, Node.exec {} 0])).rstatus
        = Status.error :=
  ⟨(serial_stop_on_error_true_halts [] {}
      [Node.exec {} 0, Node.exec {} 1, Node.exec {} 0] 1 (RNode.exec Status.error true)
      rfl rfl rfl).1 2 (RNode.exec Status.pending false) (by omega) rfl,
   (serial_stop_on_error_true_halts [] {}
      [Node.exec {} 0, Node.exec {} 1, Node.exec {} 0] 1 (RNode.exec Status.error true)
      rfl rfl rfl).2⟩

/-- C2: for every Serial node with effective `stop_on_error` false, every
child reaches a terminal state (done/error/skipped) regardless of earlier
errors, and the Serial node's final status is error exactly when some child
ended in error. -/
theorem serial_stop_on_error_false_runs_all (chain : List Attrs) (a : Attrs)
    (cs : List Node)
    (hsoe : eff_stop_on_error (a :: chain) = false)
    (hskip : a.skip = false) :
    (∀ r ∈ (runNode chain (Node.serial a cs)).childrenR, r.rstatus.isTerminal = true)
    ∧ ((runNode chain (Node.serial a cs)).rstatus = Status.error ↔
        ∃ r ∈ (runNode chain (Node.serial a cs)).childrenR, r.rstatus = Status.error) := by
  rw [runNode_serial_run chain a cs hskip, hsoe]
  simp only [RNode.childrenR, RNode.rstatus]
  constructor
  · intro r hr
    obtain ⟨c, rfl⟩ := runList_false_mem (a :: chain) cs r hr
    exact runNode_rstatus_terminal (a :: chain) c
  · by_cases hf : (runList (a :: chain) false cs).2 = true
    · rw [if_pos hf]
      exact iff_of_true rfl ((runList_false_flag (a :: chain) cs).mp hf)
    · rw [if_neg hf]
      constructor
      · intro h; exact Status.noConfusion h
      · intro h; exact absurd ((runList_false_flag (a :: chain) cs).mpr h) hf

/-- Witness for C2: Serial[A(done), B(error), C(done)] with stop_on_error
false reports error at the end (B errored) while all children ran. -/
theorem serial_stop_on_error_false_runs_all_witness :
    (runNode []
      (Node.serial { stop_on_error := some false }
        [Node.exec {} 0, Node.exec {} 1, Node.exec {} 0])).rstatus = Status.error :=
  (serial_stop_on_error_false_runs_all [] { stop_on_error := some false }
    [Node.exec {} 0, Node.exec {} 1, Node.exec {} 0] rfl rfl).2.mpr
    ⟨RNode.exec Status.error true,
     List.mem_cons_of_mem _ (List.mem_cons_self _ _), rfl⟩

/-- C8: Skip and Unskip (`set_skip` with true/false) are idempotent and
settable on any node; setting skip changes no descendant's stored
attributes; a node whose own `skip` flag is true runs to status skipped
with zero containers launched anywhere in its subtree, and its children all
stay pending (they are never dispatched). -/
theorem skip_is_idempotent_local_and_short_circuits (chain : List Attrs)
    (n : Node) (b : Bool) (hskip : n.attrs.skip = true) :
    set_skip (set_skip n b) b = set_skip n b
    ∧ (set_skip n b).childrenN = n.childrenN
    ∧ (runNode chain n).rstatus = Status.skipped
    ∧ dispatchCount (runNode chain n) = 0
    ∧ allPendingList (runNode chain n).childrenR = true := by
  refine ⟨?_, ?_, ?_, ?_, ?_⟩
  · cases n <;> rfl
  · cases n <;> rfl
  · cases n with
    | exec a c =>
      simp only [Node.attrs] at hskip
      simp [runNode, hskip, RNode.rstatus]
    | serial a cs =>
      simp only [Node.attrs] at hskip
      simp [runNode, hskip, RNode.rstatus]
    | parallel a cs =>
      simp only [Node.attrs] at hskip
      simp [runNode, hskip, RNode.rstatus]
  · cases n with
    | exec a c =>
      simp only [Node.attrs] at hskip
      simp [runNode, hskip, dispatchCount]
    | serial a cs =>
      simp only [Node.attrs] at hskip
      simp [runNode, hskip, dispatchCount, dispatchCountList_pendingList cs]
    | parallel a cs =>
      simp only [Node.attrs] at hskip
      simp [runNode, hskip, dispatchCount, dispatchCountList_pendingList cs]
  · cases n with
    | exec a c =>
      simp only [Node.attrs] at hskip
      simp [runNode, hskip, RNode.childrenR, allPendingList]
    | serial a cs =>
      simp only [Node.attrs] at hskip
      simp [runNode, hskip, RNode.childrenR, allPendingList_pendingList cs]
    | parallel a cs =>
      simp only [Node.attrs] at hskip
      simp [runNode, hskip, RNode.childrenR, allPendingList_pendingList cs]

/-- Witness for C8: a statically skipped Serial parent becomes skipped, no
container is launched, and its child stays pending. -/
theorem skip_is_idempotent_local_and_short_circuits_witness :
    set_skip (set_skip (Node.serial { skip := true } [Node.exec {} 0]) true) true
        = set_skip (Node.serial { skip := true } [Node.exec {} 0]) true
    ∧ (set_skip (Node.serial { skip := true } [Node.exec {} 0]) true).childrenN
        = (Node.serial { skip := true } [Node.exec {} 0]).childrenN
    ∧ (runNode [] (Node.serial { skip := true } [Node.exec {} 0])).rstatus
        = Status.skipped
    ∧ dispatchCount (runNode [] (Node.serial { skip := true } [Node.exec {} 0])) = 0
    ∧ allPendingList
        (runNode [] (Node.serial { skip := true } [Node.exec {} 0])).childrenR = true :=
  skip_is_idempotent_local_and_short_circuits []
    (Node.serial { skip := true } [Node.exec {} 0]) true rfl

/-! ## Claim C4: parameter resolution -/

theorem nearest_of_first {α : Type} (f : Attrs → Option α) (d : α) (chain : List Attrs)
    (k : Nat) (a : Attrs) (v : α)
    (hk : chain[k]? = some a) (ha : f a = some v)
    (hbefore : ∀ j b, j < k → chain[j]? = some b → f b = none) :
    nearest f d chain = v := by
  induction chain generalizing k with
  | nil => simp at hk
  | cons c rest ih =>
    cases k with
    | zero =>
      rw [List.getElem?_cons_zero] at hk
      cases hk
      simp [nearest, ha]
    | succ k' =>
      rw [List.getElem?_cons_succ] at hk
      have hc : f c = none := hbefore 0 c (by omega) (by simp)
      simp only [nearest, hc]
      refine ih k' hk ?_
      intro j b hj hb
      exact hbefore (j + 1) b (by omega) (by rw [List.getElem?_cons_succ]; exact hb)

theorem nearest_of_none {α : Type} (f : Attrs → Option α) (d : α) (chain : List Attrs)
    (hall : ∀ (j : Nat) (b : Attrs), chain[j]? = some b → f b = none) :
    nearest f d chain = d := by
  induction chain with
  | nil => rfl
  | cons c rest ih =>
    have hc : f c = none := hall 0 c (by simp)
    simp only [nearest, hc]
    refine ih ?_
    intro j b hb
    exact hall (j + 1) b (by rw [List.getElem?_cons_succ]; exact hb)

theorem update_image_getElem_lt (chain : List Attrs) (k : Nat) (v : String)
    (j : Nat) (hj : j < k) :
    (update_image chain k v)[j]? = chain[j]? := by
  induction chain generalizing k j with
  | nil => simp [update_image]
  | cons c rest ih =>
    cases k with
    | zero => omega
    | succ k' =>
      cases j with
      | zero => simp [update_image]
      | succ j' =>
        simp only [update_image, List.getElem?_cons_succ]
        exact ih k' j' (by omega)

theorem update_image_getElem_self (chain : List Attrs) (k : Nat) (v : String)
    (hk : k < chain.length) :
    ∃ a, chain[k]? = some a
      ∧ (update_image chain k v)[k]? = some { a with image := some v } := by
  induction chain generalizing k with
  | nil => simp at hk
  | cons c rest ih =>
    cases k with
    | zero => exact ⟨c, by simp, by simp [update_image]⟩
    | succ k' =>
      simp only [update_image, List.getElem?_cons_succ]
      exact ih k' (by simpa using hk)

/-- C4: `resolve_params` gives each parameter (shown here for `image`) the
value set on the nearest ancestor — or the node itself — that defines it
explicitly, else the documented default; since it is recomputed from the
current attribute chain at dispatch time rather than memoized, updating the
image of the nearest ancestor that provides it changes the node's effective
image. -/
theorem resolve_params_nearest_explicit_else_default (chain : List Attrs)
    (k : Nat) (v : String) (a : Attrs) :
    ((chain[k]? = some a ∧ a.image = some v ∧
        (∀ j b, j < k → chain[j]? = some b → b.image = none)) →
      (resolve_params chain).image = v)
    ∧ ((∀ (j : Nat) (b : Attrs), chain[j]? = some b → b.image = none) →
      (resolve_params chain).image = "python")
    ∧ ((k < chain.length ∧ (∀ j b, j < k → chain[j]? = some b → b.image = none)) →
      (resolve_params (update_image chain k v)).image = v) := by
  refine ⟨?_, ?_, ?_⟩
  · rintro ⟨hk, ha, hbefore⟩
    exact nearest_of_first _ _ chain k a v hk ha hbefore
  · intro hall
    exact nearest_of_none _ _ chain hall
  · rintro ⟨hk, hbefore⟩
    obtain ⟨b, hb, hb'⟩ := update_image_getElem_self chain k v hk
    refine nearest_of_first _ _ (update_image chain k v) k _ v hb' rfl ?_
    intro j x hj hx
    rw [update_image_getElem_lt chain k v j hj] at hx
    exact hbefore j x hj hx

/-- Witness for C4: a node with no explicit image inherits "img1" from its
ancestor; editing that ancestor to "img2" changes the node's effective
image; with no image anywhere the documented default applies. -/
theorem resolve_params_nearest_explicit_else_default_witness :
    (resolve_params [{}, { image := some "img1" }]).image = "img1"
    ∧ (resolve_params (update_image [{}, { image := some "img1" }] 1 "img2")).image
        = "img2"
    ∧ (resolve_params [{}]).image = "python" :=
  ⟨(resolve_params_nearest_explicit_else_default
      [{}, { image := some "img1" }] 1 "img1" { image := some "img1" }).1
      ⟨rfl, rfl, by
        intro j b hj hb
        have hj0 : j = 0 := by omega
        subst hj0
        simp only [List.getElem?_cons_zero, Option.some.injEq] at hb
        rw [← hb]⟩,
   (resolve_params_nearest_explicit_else_default
      [{}, { image := some "img1" }] 1 "img2" {}).2.2
      ⟨by simp, by
        intro j b hj hb
        have hj0 : j = 0 := by omega
        subst hj0
        simp only [List.getElem?_cons_zero, Option.some.injEq] at hb
        rw [← hb]⟩,
   (resolve_params_nearest_explicit_else_default [{}] 0 "x" {}).2.1 (by
      intro j b hb
      cases j with
      | zero =>
        simp only [List.getElem?_cons_zero, Option.some.injEq] at hb
        rw [← hb]
      | succ j' => simp at hb)⟩

/-! ## Container Pool (spec §4.2) and error taxonomy (spec §7) -/

/-- Modelled from the spec: the engine's error taxonomy (§7); the engine
itself is not in the repository.  `lazyExpansionError` is deliberately a
distinct kind from the generic `executionError`. -/
inductive EngineError
  | duplicatePathError
  | invalidParentError
  | resourceExhaustedError
  | executionError
  | lazyExpansionError
  | dataStoreError
deriving DecidableEq

/-- Parameters relevant to container matching (image/resource profile and
the docker-socket flag, spec §4.2). -/
structure ExecParams where
  image : String
  cpu : Nat
  mem : Nat
  requires_docker : Bool
deriving DecidableEq

/-- A live container's profile. -/
structure Container where
  image : String
  cpu : Nat
  mem : Nat
  requires_docker : Bool
deriving DecidableEq

/-- Modelled from the spec: Container Pool state (§4.2): live containers by
handle, the idle (reusable, unscoped) handles, the binding of same-container
scope ids to their container handle, a fresh-handle counter and the
configured concurrency capacity. -/
structure PoolState where
  live : List (Nat × Container)
  idle : List Nat
  scope_bind : List (Nat × Nat)
  next_id : Nat
  capacity : Nat
deriving DecidableEq

/-- The container handle a scope id is currently bound to, if any. -/
def lookup_scope (st : PoolState) (s : Nat) : Option Nat :=
  (st.scope_bind.find? (fun q => q.1 == s)).map (fun q => q.2)

/-- Handles of all live containers. -/
def handles (st : PoolState) : List Nat := st.live.map (fun q => q.1)

/-- Handles currently bound to some same-container scope. -/
def bound_handles (st : PoolState) : List Nat := st.scope_bind.map (fun q => q.2)

/-- Normal reuse matching: an idle container may be reused only when its
image/resource profile matches and its docker class agrees — a docker
container is never silently substituted for a non-docker one (§4.2). -/
def matches_params (c : Container) (p : ExecParams) : Bool :=
  c.image == p.image && c.cpu == p.cpu && c.mem == p.mem
    && c.requires_docker == p.requires_docker

def mk_container (p : ExecParams) : Container :=
  ⟨p.image, p.cpu, p.mem, p.requires_docker⟩

/-- Whether a new container may still be started under the configured
concurrency limit. -/
def can_start (st : PoolState) : Bool := st.live.length < st.capacity

/-- The idle container that normal reuse matching would pick, if any.
Scope-bound containers are never idle, so they are never candidates. -/
def reuse_candidate (st : PoolState) (p : ExecParams) : Option Nat :=
  st.idle.find? (fun h =>
    match st.live.find? (fun q => q.1 == h) with
    | some q => matches_params q.2 p
    | none => false)

/-- Modelled from the spec: `acquire(exec_params, scope_id)` (§4.2).  With a
scope id already bound to a live container, that container is returned
unconditionally, ignoring normal reuse matching.  With an unbound scope id,
or no scope id and no matching idle container, a fresh container is started
when capacity allows; otherwise the call fails with
`ResourceExhaustedError`. -/
def acquire (st : PoolState) (p : ExecParams) (scope : Option Nat) :
    Except EngineError (Nat × PoolState) :=
  match scope with
  | some s =>
    match lookup_scope st s with
    | some h => .ok (h, st)
    | none =>
      if can_start st then
        .ok (st.next_id,
          { st with
            live := (st.next_id, mk_container p) :: st.live
            scope_bind := (s, st.next_id) :: st.scope_bind
            next_id := st.next_id + 1 })
      else .error .resourceExhaustedError
  | none =>
    match reuse_candidate st p with
    | some h => .ok (h, { st with idle := st.idle.erase h })
    | none =>
      if can_start st then
        .ok (st.next_id,
          { st with
            live := (st.next_id, mk_container p) :: st.live
            next_id := st.next_id + 1 })
      else .error .resourceExhaustedError

/-- Modelled from the spec: `release(handle, scope_id)` (§4.2): the
container returns to the idle pool unless the scope id is set, in which case
it remains bound to its scope (a scope-bound container never re-enters the
idle pool before its scope is torn down). -/
def release (st : PoolState) (h : Nat) (scope : Option Nat) : PoolState :=
  match scope with
  | some _ => st
  | none =>
    if h ∈ handles st ∧ h ∉ bound_handles st then
      { st with idle := h :: st.idle }
    else st

/-- Modelled from the spec: tearing down a same-container scope once its
last node completes (§4.2): the binding is dropped and the scope's container
is destroyed. -/
def teardown_scope (st : PoolState) (s : Nat) : PoolState :=
  match lookup_scope st s with
  | none => st
  | some h =>
    { st with
      scope_bind := st.scope_bind.filter (fun q => q.1 != s)
      live := st.live.filter (fun q => q.1 != h)
      idle := st.idle.filter (fun x => x != h) }

/-- A pool operation issued by the scheduler. -/
inductive PoolOp
  | acq (p : ExecParams) (scope : Option Nat)
  | rel (h : Nat) (scope : Option Nat)
  | teardown (s : Nat)
deriving DecidableEq

/-- State transition of one pool operation (a failed acquire leaves the
pool unchanged). -/
def pool_step (st : PoolState) : PoolOp → PoolState
  | .acq p scope =>
    match acquire st p scope with
    | .ok r => r.2
    | .error _ => st
  | .rel h scope => release st h scope
  | .teardown s => teardown_scope st s

/-- Run a sequence of pool operations. -/
def run_ops (st : PoolState) : List PoolOp → PoolState
  | [] => st
  | op :: rest => run_ops (pool_step st op) rest

/-- Pool well-formedness: idle handles are live and unscoped, bound handles
are live, live handles are below the fresh counter, and a container is
bound to at most one scope (exclusive ownership, spec §5). -/
structure PoolWF (st : PoolState) : Prop where
  idle_live : ∀ h ∈ st.idle, h ∈ handles st
  idle_unbound : ∀ h ∈ st.idle, h ∉ bound_handles st
  bound_live : ∀ q ∈ st.scope_bind, q.2 ∈ handles st
  live_lt : ∀ q ∈ st.live, q.1 < st.next_id
  bind_inj : ∀ q ∈ st.scope_bind, ∀ r ∈ st.scope_bind, q.2 = r.2 → q.1 = r.1

theorem find?_filter_congr {α : Type} (p g : α → Bool) (l : List α)
    (himp : ∀ x, p x = true → g x = true) :
    (l.filter g).find? p = l.find? p := by
  induction l with
  | nil => rfl
  | cons x rest ih =>
    by_cases hg : g x = true
    · by_cases hp : p x = true
      · rw [List.filter_cons_of_pos hg, List.find?_cons_of_pos rest hp,
          List.find?_cons_of_pos (rest.filter g) hp]
      · rw [List.filter_cons_of_pos hg, List.find?_cons_of_neg rest hp,
          List.find?_cons_of_neg (rest.filter g) hp, ih]
    · have hp : ¬ p x = true := fun hc => hg (himp x hc)
      rw [List.filter_cons_of_neg hg, List.find?_cons_of_neg rest hp, ih]

theorem lookup_scope_mem (st : PoolState) (s c : Nat)
    (h : lookup_scope st s = some c) : (s, c) ∈ st.scope_bind := by
  unfold lookup_scope at h
  cases hf : st.scope_bind.find? (fun q => q.1 == s) with
  | none => rw [hf] at h; simp at h
  | some q =>
    rw [hf] at h
    simp only [Option.map_some'] at h
    have hq := List.find?_some hf
    have hmem := List.mem_of_find?_eq_some hf
    have hq1 : q.1 = s := by simpa using hq
    cases h
    rw [← hq1]
    simpa using hmem

theorem bound_of_lookup (st : PoolState) (s c : Nat)
    (h : lookup_scope st s = some c) : c ∈ bound_handles st := by
  unfold bound_handles
  exact List.mem_map.mpr ⟨(s, c), lookup_scope_mem st s c h, rfl⟩

theorem lookup_of_bound_cons (st : PoolState) (s c : Nat) (s2 h2 : Nat)
    (hne : s2 ≠ s) (hb : lookup_scope st s = some c) (live2 : List (Nat × Container))
    (idle2 : List Nat) (n2 cap2 : Nat) :
    lookup_scope ⟨live2, idle2, (s2, h2) :: st.scope_bind, n2, cap2⟩ s = some c := by
  unfold lookup_scope at hb ⊢
  simp only
  rw [List.find?_cons_of_neg _ (by simpa using hne)]
  exact hb

theorem handle_lt_of_live (st : PoolState) (hwf : PoolWF st) (c : Nat)
    (hc : c ∈ handles st) : c < st.next_id := by
  obtain ⟨q, hq, rfl⟩ := List.mem_map.mp hc
  exact hwf.live_lt q hq

theorem bound_handle_live (st : PoolState) (hwf : PoolWF st) (c : Nat)
    (hc : c ∈ bound_handles st) : c ∈ handles st := by
  obtain ⟨q, hq, rfl⟩ := List.mem_map.mp hc
  exact hwf.bound_live q hq

theorem poolWF_start_fresh (st : PoolState) (p : ExecParams) (hwf : PoolWF st) :
    PoolWF { st with
      live := (st.next_id, mk_container p) :: st.live
      next_id := st.next_id + 1 } := by
  constructor
  · intro h hh
    have hold := hwf.idle_live h hh
    simp only [handles, List.map_cons] at hold ⊢
    exact List.mem_cons_of_mem _ hold
  · intro h hh
    exact hwf.idle_unbound h hh
  · intro q hq
    have hold := hwf.bound_live q hq
    simp only [handles, List.map_cons] at hold ⊢
    exact List.mem_cons_of_mem _ hold
  · intro q hq
    rcases List.mem_cons.mp hq with he | he
    · subst he; simp
    · have := hwf.live_lt q he
      show q.1 < st.next_id + 1
      omega
  · exact hwf.bind_inj

theorem poolWF_bind_fresh (st : PoolState) (p : ExecParams) (s2 : Nat)
    (hwf : PoolWF st) :
    PoolWF { st with
      live := (st.next_id, mk_container p) :: st.live
      scope_bind := (s2, st.next_id) :: st.scope_bind
      next_id := st.next_id + 1 } := by
  constructor
  · intro h hh
    have hold := hwf.idle_live h hh
    simp only [handles, List.map_cons] at hold ⊢
    exact List.mem_cons_of_mem _ hold
  · intro h hh
    have h1 := hwf.idle_unbound h hh
    have h2 : h < st.next_id := handle_lt_of_live st hwf h (hwf.idle_live h hh)
    simp only [bound_handles, List.map_cons]
    intro hc
    rcases List.mem_cons.mp hc with he | he
    · have he2 : h = st.next_id := he
      omega
    · exact h1 (by simpa [bound_handles] using he)
  · intro q hq
    rcases List.mem_cons.mp hq with he | he
    · subst he
      simp [handles]
    · have hold := hwf.bound_live q he
      simp only [handles, List.map_cons] at hold ⊢
      exact List.mem_cons_of_mem _ hold
  · intro q hq
    rcases List.mem_cons.mp hq with he | he
    · subst he; simp
    · have := hwf.live_lt q he
      show q.1 < st.next_id + 1
      omega
  · intro q hq r hr heq
    rcases List.mem_cons.mp hq with hq1 | hq1 <;> rcases List.mem_cons.mp hr with hr1 | hr1
    · subst hq1; subst hr1; rfl
    · subst hq1
      exfalso
      have h2 := handle_lt_of_live st hwf r.2 (bound_handle_live st hwf r.2
        (List.mem_map.mpr ⟨r, hr1, rfl⟩))
      have he2 : st.next_id = r.2 := heq
      omega
    · subst hr1
      exfalso
      have h2 := handle_lt_of_live st hwf q.2 (bound_handle_live st hwf q.2
        (List.mem_map.mpr ⟨q, hq1, rfl⟩))
      have he2 : q.2 = st.next_id := heq
      omega
    · exact hwf.bind_inj q hq1 r hr1 heq

theorem poolWF_erase_idle (st : PoolState) (h : Nat) (hwf : PoolWF st) :
    PoolWF { st with idle := st.idle.erase h } := by
  constructor
  · intro x hx; exact hwf.idle_live x (List.mem_of_mem_erase hx)
  · intro x hx; exact hwf.idle_unbound x (List.mem_of_mem_erase hx)
  · exact hwf.bound_live
  · exact hwf.live_lt
  · exact hwf.bind_inj

theorem poolWF_release (st : PoolState) (h : Nat) (scope : Option Nat)
    (hwf : PoolWF st) : PoolWF (release st h scope) := by
  cases scope with
  | some s2 => exact hwf
  | none =>
    simp only [release]
    by_cases hc : h ∈ handles st ∧ h ∉ bound_handles st
    · rw [if_pos hc]
      constructor
      · intro x hx
        rcases List.mem_cons.mp hx with he | he
        · subst he; exact hc.1
        · exact hwf.idle_live x he
      · intro x hx
        rcases List.mem_cons.mp hx with he | he
        · subst he; exact hc.2
        · exact hwf.idle_unbound x he
      · exact hwf.bound_live
      · exact hwf.live_lt
      · exact hwf.bind_inj
    · rw [if_neg hc]; exact hwf

theorem poolWF_teardown (st : PoolState) (s2 : Nat) (hwf : PoolWF st) :
    PoolWF (teardown_scope st s2) := by
  unfold teardown_scope
  cases hl : lookup_scope st s2 with
  | none => exact hwf
  | some h =>
    have hsh : (s2, h) ∈ st.scope_bind := lookup_scope_mem st s2 h hl
    constructor
    · intro x hx
      have hx' := List.mem_filter.mp hx
      have hxh : x ≠ h := by simpa using hx'.2
      have hlive := hwf.idle_live x hx'.1
      obtain ⟨q, hq, hqe⟩ := List.mem_map.mp hlive
      simp only [handles]
      refine List.mem_map.mpr ⟨q, List.mem_filter.mpr ⟨hq, ?_⟩, hqe⟩
      rw [hqe]
      simpa using hxh
    · intro x hx
      have hx' := List.mem_filter.mp hx
      have hub := hwf.idle_unbound x hx'.1
      intro hc
      obtain ⟨q, hq, hqe⟩ := List.mem_map.mp hc
      exact hub (List.mem_map.mpr ⟨q, (List.mem_filter.mp hq).1, hqe⟩)
    · intro q hq
      have hq' := List.mem_filter.mp hq
      have hqs : q.1 ≠ s2 := by simpa using hq'.2
      have hlive := hwf.bound_live q hq'.1
      have hqh : q.2 ≠ h := by
        intro he
        exact hqs (hwf.bind_inj q hq'.1 (s2, h) hsh (by simpa using he))
      obtain ⟨r, hr, hre⟩ := List.mem_map.mp hlive
      simp only [handles]
      refine List.mem_map.mpr ⟨r, List.mem_filter.mpr ⟨hr, ?_⟩, hre⟩
      rw [hre]
      simpa using hqh
    · intro q hq
      exact hwf.live_lt q (List.mem_filter.mp hq).1
    · intro q hq r hr
      exact hwf.bind_inj q (List.mem_filter.mp hq).1 r (List.mem_filter.mp hr).1

theorem pool_step_preserves (st : PoolState) (op : PoolOp) (s c : Nat)
    (hwf : PoolWF st) (hb : lookup_scope st s = some c)
    (hnt : op ≠ PoolOp.teardown s) :
    PoolWF (pool_step st op) ∧ lookup_scope (pool_step st op) s = some c := by
  cases op with
  | acq p scope =>
    cases scope with
    | some s2 =>
      cases hl : lookup_scope st s2 with
      | some h2 =>
        simp only [pool_step, acquire, hl]
        exact ⟨hwf, hb⟩
      | none =>
        have hne : s2 ≠ s := by
          intro he; subst he; rw [hl] at hb; exact Option.noConfusion hb
        by_cases hcs : can_start st = true
        · simp only [pool_step, acquire, hl, hcs, if_true]
          exact ⟨poolWF_bind_fresh st p s2 hwf,
            lookup_of_bound_cons st s c s2 st.next_id hne hb _ _ _ _⟩
        · have hcs' : can_start st = false := by simpa using hcs
          simp only [pool_step, acquire, hl, hcs', Bool.false_eq_true, if_false]
          exact ⟨hwf, hb⟩
    | none =>
      cases hr : reuse_candidate st p with
      | some h2 =>
        simp only [pool_step, acquire, hr]
        exact ⟨poolWF_erase_idle st h2 hwf, hb⟩
      | none =>
        by_cases hcs : can_start st = true
        · simp only [pool_step, acquire, hr, hcs, if_true]
          exact ⟨poolWF_start_fresh st p hwf, hb⟩
        · have hcs' : can_start st = false := by simpa using hcs
          simp only [pool_step, acquire, hr, hcs', Bool.false_eq_true, if_false]
          exact ⟨hwf, hb⟩
  | rel h scope =>
    refine ⟨poolWF_release st h scope hwf, ?_⟩
    cases scope with
    | some s2 => exact hb
    | none =>
      simp only [pool_step, release]
      by_cases hc : h ∈ handles st ∧ h ∉ bound_handles st
      · rw [if_pos hc]; exact hb
      · rw [if_neg hc]; exact hb
  | teardown s2 =>
    have hne : s2 ≠ s := by
      intro he; subst he; exact hnt rfl
    refine ⟨poolWF_teardown st s2 hwf, ?_⟩
    simp only [pool_step]
    unfold teardown_scope
    cases hl : lookup_scope st s2 with
    | none => exact hb
    | some h2 =>
      unfold lookup_scope at hb ⊢
      simp only
      rw [find?_filter_congr (fun q => q.1 == s) (fun q => q.1 != s2) st.scope_bind ?_]
      · exact hb
      · intro x hx
        have hx1 : x.1 = s := by simpa using hx
        simp [hx1]
        omega

theorem run_ops_preserves (st : PoolState) (ops : List PoolOp) (s c : Nat)
    (hwf : PoolWF st) (hb : lookup_scope st s = some c)
    (hnt : ∀ op ∈ ops, op ≠ PoolOp.teardown s) :
    PoolWF (run_ops st ops) ∧ lookup_scope (run_ops st ops) s = some c := by
  induction ops generalizing st with
  | nil => exact ⟨hwf, hb⟩
  | cons op rest ih =>
    obtain ⟨hwf2, hb2⟩ :=
      pool_step_preserves st op s c hwf hb (hnt op (List.mem_cons_self _ _))
    exact ih (pool_step st op) hwf2 hb2 (fun o ho => hnt o (List.mem_cons_of_mem _ ho))

theorem acquire_bound_unconditional (st : PoolState) (p : ExecParams) (s c : Nat)
    (hb : lookup_scope st s = some c) :
    acquire st p (some s) = Except.ok (c, st) := by
  simp [acquire, hb]

theorem acquire_excludes_bound (st : PoolState) (p : ExecParams) (s c : Nat)
    (hwf : PoolWF st) (hb : lookup_scope st s = some c) :
    (∀ h2 st2, acquire st p none = Except.ok (h2, st2) → h2 ≠ c)
    ∧ (∀ s2, s2 ≠ s → ∀ h2 st2,
        acquire st p (some s2) = Except.ok (h2, st2) → h2 ≠ c) := by
  have hcb : c ∈ bound_handles st := bound_of_lookup st s c hb
  have hclive : c ∈ handles st := bound_handle_live st hwf c hcb
  have hclt : c < st.next_id := handle_lt_of_live st hwf c hclive
  constructor
  · intro h2 st2 hok
    cases hr : reuse_candidate st p with
    | some h3 =>
      simp only [acquire, hr, Except.ok.injEq, Prod.mk.injEq] at hok
      have h3idle : h3 ∈ st.idle := List.mem_of_find?_eq_some hr
      have hub := hwf.idle_unbound h3 h3idle
      intro he
      apply hub
      rw [hok.1, he]
      exact hcb
    | none =>
      by_cases hcs : can_start st = true
      · simp only [acquire, hr, hcs, if_true, Except.ok.injEq, Prod.mk.injEq] at hok
        intro he
        rw [← hok.1] at he
        omega
      · have hcs' : can_start st = false := by simpa using hcs
        simp [acquire, hr, hcs'] at hok
  · intro s2 hne h2 st2 hok
    cases hl : lookup_scope st s2 with
    | some h3 =>
      simp only [acquire, hl, Except.ok.injEq, Prod.mk.injEq] at hok
      have hmem : (s2, h3) ∈ st.scope_bind := lookup_scope_mem st s2 h3 hl
      intro he
      rw [← hok.1] at he
      exact hne (hwf.bind_inj (s2, h3) hmem (s, c) (lookup_scope_mem st s c hb) he)
    | none =>
      by_cases hcs : can_start st = true
      · simp only [acquire, hl, hcs, if_true, Except.ok.injEq, Prod.mk.injEq] at hok
        intro he
        rw [← hok.1] at he
        omega
      · have hcs' : can_start st = false := by simpa using hcs
        simp [acquire, hl, hcs'] at hok

/-- C3: once a same-container scope is bound to a live container, every
`acquire` for that scope — now and after any sequence of pool operations not
tearing the scope down — returns that same container handle unconditionally
(ignoring normal reuse matching, without changing the pool), so all nodes of
the scope observe the identical handle; and no acquire for a different
scope, or for no scope, ever returns that handle, so no other node is
scheduled into the scope's container. -/
theorem same_container_scope_exclusive (st : PoolState) (s c : Nat)
    (hwf : PoolWF st) (hb : lookup_scope st s = some c) :
    (∀ p, acquire st p (some s) = Except.ok (c, st))
    ∧ (∀ ops, (∀ op ∈ ops, op ≠ PoolOp.teardown s) → ∀ p,
        acquire (run_ops st ops) p (some s) = Except.ok (c, run_ops st ops))
    ∧ (∀ ops, (∀ op ∈ ops, op ≠ PoolOp.teardown s) → ∀ p,
        (∀ h2 st2, acquire (run_ops st ops) p none = Except.ok (h2, st2) → h2 ≠ c)
        ∧ (∀ s2, s2 ≠ s → ∀ h2 st2,
            acquire (run_ops st ops) p (some s2) = Except.ok (h2, st2) → h2 ≠ c)) := by
  refine ⟨?_, ?_, ?_⟩
  · intro p
    exact acquire_bound_unconditional st p s c hb
  · intro ops hnt p
    obtain ⟨hwf2, hb2⟩ := run_ops_preserves st ops s c hwf hb hnt
    exact acquire_bound_unconditional _ p s c hb2
  · intro ops hnt p
    obtain ⟨hwf2, hb2⟩ := run_ops_preserves st ops s c hwf hb hnt
    exact acquire_excludes_bound _ p s c hwf2 hb2

/-- Witness for C3: with container 0 bound to scope 5, an acquire for scope
5 after further pool traffic still returns handle 0 and leaves the pool
unchanged. -/
theorem same_container_scope_exclusive_witness :
    acquire
        (run_ops ⟨[(0, ⟨"python", 1, 2, false⟩)], [], [(5, 0)], 1, 4⟩
          [PoolOp.rel 0 (some 5), PoolOp.acq ⟨"python", 1, 2, false⟩ none])
        ⟨"redis", 1, 2, false⟩ (some 5)
      = Except.ok (0,
          run_ops ⟨[(0, ⟨"python", 1, 2, false⟩)], [], [(5, 0)], 1, 4⟩
            [PoolOp.rel 0 (some 5), PoolOp.acq ⟨"python", 1, 2, false⟩ none]) :=
  (same_container_scope_exclusive ⟨[(0, ⟨"python", 1, 2, false⟩)], [], [(5, 0)], 1, 4⟩
      5 0 ⟨by decide, by decide, by decide, by decide, by decide⟩ rfl).2.1
    [PoolOp.rel 0 (some 5), PoolOp.acq ⟨"python", 1, 2, false⟩ none]
    (by decide) ⟨"redis", 1, 2, false⟩

/-- Scheduler-side outcome of dispatching one queued node. -/
inductive DispatchResult
  | started (h : Nat) (st2 : PoolState)
  | requeued (n : Node) (st2 : PoolState)
  | failed (n : Node)

/-- Modelled from the spec: scheduler dispatch of a queued node (§4.4
"Failure handling"): `ResourceExhaustedError` from the Container Pool
re-queues the node unchanged (it stays queued and is retried on a later
pass); on success the node starts running.  Any other error would be
terminal for the node, but `acquire` only ever fails with
`ResourceExhaustedError`. -/
def sched_dispatch (st : PoolState) (n : Node) (p : ExecParams)
    (scope : Option Nat) : DispatchResult × Status :=
  match acquire st p scope with
  | .ok r => (.started r.1 r.2, Status.running)
  | .error .resourceExhaustedError => (.requeued n st, Status.queued)
  | .error _ => (.failed n, Status.error)

/-- C6: when no container can be started within the configured concurrency
limit (and none can be reused), `acquire` fails with
`ResourceExhaustedError`; the scheduler then re-queues the node unchanged —
it stays queued with the pool untouched — and the error is never surfaced
as a node failure. -/
theorem resource_exhausted_is_retryable_backpressure (st : PoolState) (n : Node)
    (p : ExecParams) (s : Nat)
    (hcap : st.capacity ≤ st.live.length)
    (hnoreuse : reuse_candidate st p = none)
    (hnoscope : lookup_scope st s = none) :
    acquire st p none = Except.error EngineError.resourceExhaustedError
    ∧ acquire st p (some s) = Except.error EngineError.resourceExhaustedError
    ∧ sched_dispatch st n p none = (DispatchResult.requeued n st, Status.queued)
    ∧ (sched_dispatch st n p none).2 ≠ Status.error := by
  have hcs : can_start st = false := by
    simp only [can_start, decide_eq_false_iff_not, not_lt]
    exact hcap
  have h1 : acquire st p none = Except.error EngineError.resourceExhaustedError := by
    simp [acquire, hnoreuse, hcs]
  refine ⟨h1, ?_, ?_, ?_⟩
  · simp [acquire, hnoscope, hcs]
  · simp [sched_dispatch, h1]
  · simp [sched_dispatch, h1]

/-- Witness for C6: an empty pool with capacity 0 exhausts, and the node is
re-queued unchanged with status queued. -/
theorem resource_exhausted_is_retryable_backpressure_witness :
    acquire ⟨[], [], [], 0, 0⟩ ⟨"python", 1, 2, false⟩ none
      = Except.error EngineError.resourceExhaustedError
    ∧ acquire ⟨[], [], [], 0, 0⟩ ⟨"python", 1, 2, false⟩ (some 0)
      = Except.error EngineError.resourceExhaustedError
    ∧ sched_dispatch ⟨[], [], [], 0, 0⟩ (Node.exec {} 0) ⟨"python", 1, 2, false⟩ none
      = (DispatchResult.requeued (Node.exec {} 0) ⟨[], [], [], 0, 0⟩, Status.queued)
    ∧ (sched_dispatch ⟨[], [], [], 0, 0⟩ (Node.exec {} 0)
        ⟨"python", 1, 2, false⟩ none).2 ≠ Status.error :=
  resource_exhausted_is_retryable_backpressure ⟨[], [], [], 0, 0⟩ (Node.exec {} 0)
    ⟨"python", 1, 2, false⟩ 0 (by decide) rfl rfl

/-! ## Data Store client interface (spec §4.5) -/

namespace DataStore

/-- Modelled from the spec: the external key-value data store (§4.5) — a
hierarchical path string to byte-value mapping.  Bytes are modelled as
naturals.  The most recent `put` for a path shadows older entries. -/
def Store : Type := List (String × List Nat)

/-- `get(path) -> bytes`: the most recently put value at the path. -/
def get (st : Store) (p : String) : Option (List Nat) :=
  (st.find? (fun q => q.1 == p)).map (fun q => q.2)

/-- `put(path, bytes)`. -/
def put (st : Store) (p : String) (b : List Nat) : Store := (p, b) :: st

/-- `delete(path)`: removes every entry stored at the path. -/
def delete (st : Store) (p : String) : Store := st.filter (fun q => q.1 != p)

/-- `exists(path) -> bool` (named `exists_` because `exists` is reserved in
Lean). -/
def exists_ (st : Store) (p : String) : Bool := (get st p).isSome

/-- `size(path) -> int`. -/
def size (st : Store) (p : String) : Option Nat := (get st p).map List.length

/-- `get_range(path, start, end) -> bytes`: python-slice semantics,
clamped to the stored value's length. -/
def get_range (st : Store) (p : String) (i j : Nat) : Option (List Nat) :=
  (get st p).map (fun b => (b.drop i).take (j - i))

theorem get_put (st : Store) (p : String) (b : List Nat) :
    get (put st p b) p = some b := by
  simp [get, put]

theorem get_delete (st : Store) (p : String) : get (delete st p) p = none := by
  induction st with
  | nil => rfl
  | cons q rest ih =>
    by_cases hq : q.1 = p
    · have hcond : (q.1 != p) = false := by simp [hq]
      simpa [delete, List.filter_cons, hcond] using ih
    · have hcond : (q.1 != p) = true := by simp [hq]
      have hbeq : (q.1 == p) = false := by simp [hq]
      simp only [delete, List.filter_cons, hcond, if_true, get] at ih ⊢
      rw [List.find?_cons, hbeq]
      exact ih

/-- C7: after `put(p, b)` the path exists, `get` returns exactly `b`, and
`get_range(p, 0, 1)` returns the first byte slice `b[0:1]`; after a
subsequent `delete(p)` the path no longer exists. -/
theorem put_get_range_delete_roundtrip (st : Store) (p : String) (b : List Nat) :
    exists_ (put st p b) p = true
    ∧ get (put st p b) p = some b
    ∧ get_range (put st p b) p 0 1 = some (b.take 1)
    ∧ exists_ (delete (put st p b) p) p = false := by
  refine ⟨?_, get_put st p b, ?_, ?_⟩
  · simp [exists_, get_put st p b]
  · simp [get_range, get_put st p b]
  · simp [exists_, get_delete (put st p b) p]

end DataStore

/-! ## Embedding of `gen_data` and `parallelize` from src/steps/data.py -/

namespace WordCount

/-- `MAX_SIZE = 6` from src/steps/data.py. -/
def MAX_SIZE : Nat := 6

/-- An ASCII lowercase letter byte. -/
def is_lower_byte (c : Nat) : Bool := 97 ≤ c && c ≤ 122

/-- An ASCII uppercase letter byte. -/
def is_upper_byte (c : Nat) : Bool := 65 ≤ c && c ≤ 90

/-- `bytes.isalpha()` over ASCII bytes: nonempty and all alphabetic. -/
def bytes_isalpha (w : List Nat) : Bool :=
  !w.isEmpty && w.all (fun c => is_lower_byte c || is_upper_byte c)

/-- `bytes.islower()` over ASCII bytes: at least one cased byte and no
uppercase byte. -/
def bytes_islower (w : List Nat) : Bool :=
  w.any (fun c => is_lower_byte c || is_upper_byte c) && !w.any is_upper_byte

/-- `w.ljust(n)`: pad on the right with spaces (byte 32) to length `n`. -/
def ljust (w : List Nat) (n : Nat) : List Nat :=
  w ++ List.replicate (n - w.length) 32

/-- The filter/pad comprehension of `gen_data` (src/steps/data.py):
`[w.ljust(MAX_SIZE) for w in words_raw if w.islower() and w.isalpha() and
3 <= len(w) <= MAX_SIZE]`. -/
def words_filtered_of (words_raw : List (List Nat)) : List (List Nat) :=
  (words_raw.filter (fun w =>
      bytes_islower w && bytes_isalpha w
        && decide (3 ≤ w.length) && decide (w.length ≤ MAX_SIZE))).map
    (fun w => ljust w MAX_SIZE)

/-- `random.choices(pop, k)` modelled with an explicit sampling oracle
`pick`: the i-th chosen word is the entry at index `pick i` modulo the
population size (Python raises on an empty population; the empty case is
never reached when the wordlist is nonempty). -/
def choices (pop : List (List Nat)) (pick : Nat → Nat) (k : Nat) :
    List (List Nat) :=
  (List.range k).map (fun i => pop.getD (pick i % pop.length) [])

/-- Effects of one `gen_data` call: whether the wordlist was downloaded and
whether `co.perm_data.puts` was called. -/
structure GenEffects where
  downloaded : Bool
  put_called : Bool
deriving DecidableEq

/-- Embedded from src/steps/data.py (`gen_data`): if the data already exists
at `path` and `force` is not set, return at once — no download, no write;
otherwise download the raw wordlist (modelled as the `words_raw` argument),
filter and pad it, sample `count` words and store
`b"\n".join(words) + b"\n"` at `path`. -/
def gen_data (count : Nat) (path : String) (force : Bool)
    (words_raw : List (List Nat)) (pick : Nat → Nat) (st : DataStore.Store) :
    DataStore.Store × GenEffects :=
  if DataStore.exists_ st path && !force then
    (st, ⟨false, false⟩)
  else
    let words := choices (words_filtered_of words_raw) pick count
    let text := List.intercalate [10] words ++ [10]
    (DataStore.put st path text, ⟨true, true⟩)

/-- C9: when `co.perm_data.exists(path)` is true and `force` is falsy,
`gen_data` returns immediately: no download, `puts` is never called, and
the store is unchanged; dually, a `puts` to the path happens only when the
data is absent or `force` is truthy. -/
theorem gen_data_skips_when_data_exists (count : Nat) (path : String)
    (words_raw : List (List Nat)) (pick : Nat → Nat) (st : DataStore.Store)
    (hex : DataStore.exists_ st path = true) :
    gen_data count path false words_raw pick st = (st, ⟨false, false⟩)
    ∧ (∀ st2 f2, (gen_data count path f2 words_raw pick st2).2.put_called = true →
        DataStore.exists_ st2 path = false ∨ f2 = true) := by
  constructor
  · simp [gen_data, hex]
  · intro st2 f2 hput
    by_cases hex2 : DataStore.exists_ st2 path = true
    · by_cases hf2 : f2 = true
      · right; exact hf2
      · exfalso
        have hf2f : f2 = false := by simpa using hf2
        simp [gen_data, hex2, hf2f] at hput
    · left
      simpa using hex2

/-- Witness for C9: with data already stored at the path and `force` off,
`gen_data` leaves the store unchanged and reports no download and no put. -/
theorem gen_data_skips_when_data_exists_witness :
    gen_data 5000000 "conducto/demo_data" false [] (fun i => i)
        (DataStore.put [] "conducto/demo_data" [97, 98, 10])
      = (DataStore.put [] "conducto/demo_data" [97, 98, 10], ⟨false, false⟩) :=
  (gen_data_skips_when_data_exists 5000000 "conducto/demo_data" [] (fun i => i)
      (DataStore.put [] "conducto/demo_data" [97, 98, 10]) rfl).1

/-- One generated chunk: the child name under the returned Parallel node and
the `process_chunk` arguments bound into its command. -/
structure Chunk where
  name : String
  input_path : String
  temp_dir : String
  top : Nat
  start : Nat
  stop : Nat
deriving DecidableEq

/-- Nat ceiling division `(a + b - 1) / b`; equals the exact real ceiling
of a / b (`ceil_div_eq_rat_ceil`). -/
def ceil_div (a b : Nat) : Nat := (a + b - 1) / b

/-- Embedded from src/steps/data.py (`parallelize`): read the stored size of
`input_path`, compute `num_chunks = ceil(data_size / (MAX_SIZE+1) /
chunksize)` (the source uses `math.ceil` over float division; modelled as
the exact ceiling), and emit a child `Chunk-{i}` per `i < num_chunks` whose
byte range is `[i*(MAX_SIZE+1)*chunksize, (i+1)*(MAX_SIZE+1)*chunksize)`.
Returns `none` when nothing is stored at `input_path` (where the Python
raises). -/
def parallelize (st : DataStore.Store) (input_path temp_dir : String)
    (top chunksize : Nat) : Option (List Chunk) :=
  (DataStore.size st input_path).map (fun data_size =>
    let num_chunks := ceil_div data_size ((MAX_SIZE + 1) * chunksize)
    (List.range num_chunks).map (fun i =>
      ⟨"Chunk-" ++ toString i, input_path, temp_dir, top,
        i * (MAX_SIZE + 1) * chunksize, (i + 1) * (MAX_SIZE + 1) * chunksize⟩))

theorem ceil_div_key (a b : Nat) (hb : 0 < b) :
    a ≤ b * ceil_div a b ∧ b * ceil_div a b < a + b := by
  have e := Nat.div_add_mod (a + b - 1) b
  have hr := Nat.mod_lt (a + b - 1) hb
  unfold ceil_div
  generalize hm : b * ((a + b - 1) / b) = m at e ⊢
  constructor <;> omega

theorem ceil_div_eq_rat_ceil (a b : Nat) (hb : 0 < b) :
    ((ceil_div a b : Nat) : ℤ) = ⌈(a : ℚ) / (b : ℚ)⌉ := by
  obtain ⟨key1, key2⟩ := ceil_div_key a b hb
  have hbq : (0 : ℚ) < (b : ℚ) := by exact_mod_cast hb
  symm
  rw [Int.ceil_eq_iff]
  constructor
  · rw [lt_div_iff₀ hbq]
    have hc : (b : ℚ) * (ceil_div a b : ℚ) < (a : ℚ) + b := by exact_mod_cast key2
    push_cast
    nlinarith
  · rw [div_le_iff₀ hbq]
    have hc : (a : ℚ) ≤ (b : ℚ) * (ceil_div a b : ℚ) := by exact_mod_cast key1
    push_cast
    nlinarith

/-- C10: with `s` bytes stored at the input path and a positive chunk size,
`parallelize` returns a Parallel node with exactly
ceil(s / (MAX_SIZE+1) / chunksize) children (MAX_SIZE = 6) named Chunk-0
through Chunk-(n-1); child i is assigned byte range
[i*(MAX_SIZE+1)*chunksize, (i+1)*(MAX_SIZE+1)*chunksize); consecutive
ranges are contiguous (each chunk ends where the next starts, so they are
disjoint), and together they cover every byte of the input. -/
theorem parallelize_chunks_cover (st : DataStore.Store)
    (input_path temp_dir : String) (top chunksize s : Nat)
    (hsize : DataStore.size st input_path = some s)
    (hpos : 0 < chunksize) :
    MAX_SIZE = 6
    ∧ ∃ chunks : List Chunk,
        parallelize st input_path temp_dir top chunksize = some chunks
        ∧ chunks.length = ceil_div s ((MAX_SIZE + 1) * chunksize)
        ∧ ((chunks.length : ℤ)
            = ⌈(s : ℚ) / ((MAX_SIZE : ℚ) + 1) / (chunksize : ℚ)⌉)
        ∧ (∀ i, i < chunks.length →
            chunks[i]? = some ⟨"Chunk-" ++ toString i, input_path, temp_dir, top,
              i * (MAX_SIZE + 1) * chunksize, (i + 1) * (MAX_SIZE + 1) * chunksize⟩)
        ∧ (∀ (i : Nat) (ci ci2 : Chunk), chunks[i]? = some ci →
            chunks[i + 1]? = some ci2 → ci.stop = ci2.start)
        ∧ (∀ b, b < s → ∃ (i : Nat) (ci : Chunk), chunks[i]? = some ci
            ∧ ci.start ≤ b ∧ b < ci.stop) := by
  have hm : 0 < (MAX_SIZE + 1) * chunksize := by positivity
  have hget : ∀ i, i < ceil_div s ((MAX_SIZE + 1) * chunksize) →
      ((List.range (ceil_div s ((MAX_SIZE + 1) * chunksize))).map (fun j =>
        (⟨"Chunk-" ++ toString j, input_path, temp_dir, top,
          j * (MAX_SIZE + 1) * chunksize,
          (j + 1) * (MAX_SIZE + 1) * chunksize⟩ : Chunk)))[i]?
        = some ⟨"Chunk-" ++ toString i, input_path, temp_dir, top,
            i * (MAX_SIZE + 1) * chunksize, (i + 1) * (MAX_SIZE + 1) * chunksize⟩ := by
    intro i hi
    rw [List.getElem?_map, List.getElem?_range hi]
    rfl
  have hlen : ((List.range (ceil_div s ((MAX_SIZE + 1) * chunksize))).map (fun j =>
      (⟨"Chunk-" ++ toString j, input_path, temp_dir, top,
        j * (MAX_SIZE + 1) * chunksize,
        (j + 1) * (MAX_SIZE + 1) * chunksize⟩ : Chunk))).length
      = ceil_div s ((MAX_SIZE + 1) * chunksize) := by
    rw [List.length_map, List.length_range]
  refine ⟨rfl, (List.range (ceil_div s ((MAX_SIZE + 1) * chunksize))).map (fun j =>
      (⟨"Chunk-" ++ toString j, input_path, temp_dir, top,
        j * (MAX_SIZE + 1) * chunksize,
        (j + 1) * (MAX_SIZE + 1) * chunksize⟩ : Chunk)),
    ?_, hlen, ?_, ?_, ?_, ?_⟩
  · simp only [parallelize, hsize, Option.map_some']
  · rw [hlen, div_div]
    have h76 : ((MAX_SIZE : ℚ) + 1) * (chunksize : ℚ)
        = (((MAX_SIZE + 1) * chunksize : Nat) : ℚ) := by
      push_cast
      ring
    rw [h76]
    exact ceil_div_eq_rat_ceil s ((MAX_SIZE + 1) * chunksize) hm
  · intro i hi
    rw [hlen] at hi
    exact hget i hi
  · intro i ci ci2 hci hci2
    have hi : i < ceil_div s ((MAX_SIZE + 1) * chunksize) := by
      by_contra hn2
      rw [List.getElem?_eq_none (by rw [hlen]; omega)] at hci
      exact Option.noConfusion hci
    have hi2 : i + 1 < ceil_div s ((MAX_SIZE + 1) * chunksize) := by
      by_contra hn2
      rw [List.getElem?_eq_none (by rw [hlen]; omega)] at hci2
      exact Option.noConfusion hci2
    rw [hget i hi] at hci
    rw [hget (i + 1) hi2] at hci2
    cases hci
    cases hci2
    rfl
  · intro b hb
    have hk := (ceil_div_key s ((MAX_SIZE + 1) * chunksize) hm).1
    have hsle : s ≤ ceil_div s ((MAX_SIZE + 1) * chunksize) * ((MAX_SIZE + 1) * chunksize) := by
      rw [Nat.mul_comm]
      exact hk
    have hin : b / ((MAX_SIZE + 1) * chunksize) < ceil_div s ((MAX_SIZE + 1) * chunksize) :=
      (Nat.div_lt_iff_lt_mul hm).mpr (lt_of_lt_of_le hb hsle)
    refine ⟨b / ((MAX_SIZE + 1) * chunksize), _,
      hget (b / ((MAX_SIZE + 1) * chunksize)) hin, ?_, ?_⟩
    · show b / ((MAX_SIZE + 1) * chunksize) * (MAX_SIZE + 1) * chunksize ≤ b
      have hassoc : b / ((MAX_SIZE + 1) * chunksize) * (MAX_SIZE + 1) * chunksize
          = b / ((MAX_SIZE + 1) * chunksize) * ((MAX_SIZE + 1) * chunksize) := by
        ring
      rw [hassoc]
      exact Nat.div_mul_le_self b ((MAX_SIZE + 1) * chunksize)
    · show b < (b / ((MAX_SIZE + 1) * chunksize) + 1) * (MAX_SIZE + 1) * chunksize
      have hassoc : (b / ((MAX_SIZE + 1) * chunksize) + 1) * (MAX_SIZE + 1) * chunksize
          = ((MAX_SIZE + 1) * chunksize) * (b / ((MAX_SIZE + 1) * chunksize))
            + (MAX_SIZE + 1) * chunksize := by
        ring
      rw [hassoc]
      have e := Nat.div_add_mod b ((MAX_SIZE + 1) * chunksize)
      have hr := Nat.mod_lt b hm
      generalize hmm : ((MAX_SIZE + 1) * chunksize) * (b / ((MAX_SIZE + 1) * chunksize)) = t at e ⊢
      omega

/-- Witness for C10: 15 bytes at the input path with chunksize 1 give
ceil(15/7/1) = 3 chunks. -/
theorem parallelize_chunks_cover_witness :
    MAX_SIZE = 6
    ∧ ∃ chunks, parallelize (DataStore.put [] "p" (List.replicate 15 97)) "p" "t" 15 1
        = some chunks ∧ chunks.length = 3 := by
  obtain ⟨h6, chunks, hp, hlen, -, -, -, -⟩ :=
    parallelize_chunks_cover (DataStore.put [] "p" (List.replicate 15 97)) "p" "t" 15 1 15
      rfl (by decide)
  exact ⟨h6, chunks, hp, by rw [hlen]; rfl⟩

end WordCount

/-! ## Lazy expansion (spec §3 "Lazy Node", §4.4): serialization contract -/

/-- Wire encoding of a boolean. -/
def encBool (b : Bool) : List Nat := [if b then 1 else 0]

/-- Wire encoding of an optional value. -/
def encOption {α : Type} (enc : α → List Nat) : Option α → List Nat
  | none => [0]
  | some a => 1 :: enc a

/-- Wire encoding of a string: length, then character codes. -/
def encString (str : String) : List Nat :=
  str.data.length :: str.data.map Char.toNat

/-- Wire encoding of an env list: length, then key/value strings. -/
def encEnv (l : List (String × String)) : List Nat :=
  l.length :: (l.map (fun q => encString q.1 ++ encString q.2)).flatten

/-- Wire encoding of a `same_container` mode. -/
def encSC : SameContainer → List Nat
  | .NEW => [0]
  | .INHERIT => [1]

/-- Wire encoding of a node's attribute record, field by field. -/
def encAttrs (a : Attrs) : List Nat :=
  encOption encString a.image
  ++ encOption encEnv a.env
  ++ encOption (fun n => [n]) a.cpu
  ++ encOption (fun n => [n]) a.mem
  ++ encOption encBool a.requires_docker
  ++ encOption encSC a.same_container
  ++ encOption encBool a.stop_on_error
  ++ encBool a.skip
  ++ encOption encString a.doc

mutual

/-- Modelled from the spec: the typed serialization of a generated subtree
(spec §9 design notes: an explicit subtree schema): a constructor tag, the
attributes, then the payload or length-prefixed children. -/
def encNode : Node → List Nat
  | .exec a code => 0 :: (encAttrs a ++ [code])
  | .serial a cs => 1 :: (encAttrs a ++ (cs.length :: encNodes cs))
  | .parallel a cs => 2 :: (encAttrs a ++ (cs.length :: encNodes cs))

/-- Concatenated encodings of a list of nodes. -/
def encNodes : List Node → List Nat
  | [] => []
  | c :: rest => encNode c ++ encNodes rest

end

/-- Read one natural from the wire. -/
def decNat : List Nat → Option (Nat × List Nat)
  | [] => none
  | n :: rest => some (n, rest)

/-- Read one boolean from the wire. -/
def decBool : List Nat → Option (Bool × List Nat)
  | 0 :: rest => some (false, rest)
  | 1 :: rest => some (true, rest)
  | _ => none

/-- Read one `same_container` mode from the wire. -/
def decSC : List Nat → Option (SameContainer × List Nat)
  | 0 :: rest => some (SameContainer.NEW, rest)
  | 1 :: rest => some (SameContainer.INHERIT, rest)
  | _ => none

/-- Read an optional value from the wire. -/
def decOption {α : Type} (dec : List Nat → Option (α × List Nat)) :
    List Nat → Option (Option α × List Nat)
  | 0 :: rest => some (none, rest)
  | 1 :: rest => (dec rest).map (fun r => (some r.1, r.2))
  | _ => none

/-- Read `k` character codes from the wire. -/
def decChars : Nat → List Nat → Option (List Char × List Nat)
  | 0, rest => some ([], rest)
  | _ + 1, [] => none
  | k + 1, c :: rest =>
    (decChars k rest).map (fun r => (Char.ofNat c :: r.1, r.2))

/-- Read one string from the wire. -/
def decString (l : List Nat) : Option (String × List Nat) :=
  (decNat l).bind (fun r =>
    (decChars r.1 r.2).map (fun r2 => (String.mk r2.1, r2.2)))

/-- Read `k` env entries from the wire. -/
def decPairs : Nat → List Nat → Option (List (String × String) × List Nat)
  | 0, rest => some ([], rest)
  | k + 1, rest =>
    (decString rest).bind (fun r1 =>
      (decString r1.2).bind (fun r2 =>
        (decPairs k r2.2).map (fun r3 => ((r1.1, r2.1) :: r3.1, r3.2))))

/-- Read an env list from the wire. -/
def decEnv (l : List Nat) : Option (List (String × String) × List Nat) :=
  (decNat l).bind (fun r => decPairs r.1 r.2)

/-- Read an attribute record from the wire. -/
def decAttrs (l : List Nat) : Option (Attrs × List Nat) :=
  (decOption decString l).bind (fun r1 =>
  (decOption decEnv r1.2).bind (fun r2 =>
  (decOption decNat r2.2).bind (fun r3 =>
  (decOption decNat r3.2).bind (fun r4 =>
  (decOption decBool r4.2).bind (fun r5 =>
  (decOption decSC r5.2).bind (fun r6 =>
  (decOption decBool r6.2).bind (fun r7 =>
  (decBool r7.2).bind (fun r8 =>
  (decOption decString r8.2).map (fun r9 =>
    (⟨r1.1, r2.1, r3.1, r4.1, r5.1, r6.1, r7.1, r8.1, r9.1⟩, r9.2))))))))))

mutual

/-- Read one node from the wire; `fuel` strictly decreases on every
recursive call, so any fuel at least twice the wire length suffices. -/
def decNode : Nat → List Nat → Option (Node × List Nat)
  | 0, _ => none
  | fuel + 1, l =>
    match l with
    | 0 :: rest =>
      (decAttrs rest).bind (fun ra =>
        (decNat ra.2).map (fun rc => (Node.exec ra.1 rc.1, rc.2)))
    | 1 :: rest =>
      (decAttrs rest).bind (fun ra =>
        (decNat ra.2).bind (fun rn =>
          (decNodes fuel rn.1 rn.2).map (fun rl =>
            (Node.serial ra.1 rl.1, rl.2))))
    | 2 :: rest =>
      (decAttrs rest).bind (fun ra =>
        (decNat ra.2).bind (fun rn =>
          (decNodes fuel rn.1 rn.2).map (fun rl =>
            (Node.parallel ra.1 rl.1, rl.2))))
    | _ => none

/-- Read `k` nodes from the wire. -/
def decNodes : Nat → Nat → List Nat → Option (List Node × List Nat)
  | 0, _, _ => none
  | _ + 1, 0, l => some ([], l)
  | fuel + 1, k + 1, l =>
    (decNode fuel l).bind (fun r1 =>
      (decNodes fuel k r1.2).map (fun r2 => (r1.1 :: r2.1, r2.2)))

end

/-- Modelled from the spec: deserializing the Generate output into a
subtree (spec §4.4): the bytes must be one complete valid node encoding. -/
def decode (l : List Nat) : Option Node :=
  match decNode (2 * l.length + 2) l with
  | some (n, []) => some n
  | _ => none

/-- The Execute placeholder after its paired Generate node finishes. -/
structure ExpandOutcome where
  node : Node
  status : Status
  err_kind : Option EngineError
  enqueued : Bool

/-- Modelled from the spec: lazy expansion of the Execute placeholder (spec
§4.4): on successful deserialization the generated subtree is spliced under
the placeholder and enqueued for scheduling; on failure the placeholder
transitions to error with the distinguishable `LazyExpansionError`. -/
def expand_execute (ph : Node) (out : List Nat) : ExpandOutcome :=
  match decode out with
  | some sub => ⟨set_children ph sub.childrenN, Status.pending, none, true⟩
  | none => ⟨ph, Status.error, some EngineError.lazyExpansionError, false⟩

/-- C5: a runnable Lazy Generate node executes as a normal Exec node; when
its output deserializes into a subtree, that subtree is spliced under the
paired Execute placeholder (which has no children before splicing) and it
is enqueued for scheduling with no error recorded; when deserialization
fails, the placeholder transitions to error with the distinguishable
`LazyExpansionError`, which is distinct from the generic execution error. -/
theorem lazy_expansion_splices_or_errors (chain : List Attrs) (ga : Attrs)
    (gcode : Nat) (ph : Node) (out : List Nat)
    (hga : ga.skip = false) (_hph : ph.childrenN = []) :
    runNode chain (Node.exec ga gcode)
        = RNode.exec (if gcode = 0 then Status.done else Status.error) true
    ∧ (∀ sub, decode out = some sub →
        expand_execute ph out
          = ⟨set_children ph sub.childrenN, Status.pending, none, true⟩)
    ∧ (decode out = none →
        (expand_execute ph out).status = Status.error
        ∧ (expand_execute ph out).err_kind = some EngineError.lazyExpansionError)
    ∧ EngineError.lazyExpansionError ≠ EngineError.executionError := by
  refine ⟨?_, ?_, ?_, by decide⟩
  · simp [runNode, hga]
  · intro sub hdec
    simp [expand_execute, hdec]
  · intro hdec
    simp [expand_execute, hdec]

/-- Witness for C5: a Generate output encoding a 3-child Parallel subtree is
spliced under an empty Execute placeholder, which ends up with exactly 3
children, all initially pending, and is enqueued. -/
theorem lazy_expansion_splices_or_errors_witness :
    expand_execute (Node.parallel {} [])
        (encNode (Node.parallel {}
          [Node.exec {} 0, Node.exec {} 0, Node.exec {} 0]))
      = ⟨Node.parallel {} [Node.exec {} 0, Node.exec {} 0, Node.exec {} 0],
          Status.pending, none, true⟩
    ∧ (Node.parallel {} [Node.exec {} 0, Node.exec {} 0, Node.exec {} 0]).childrenN.length
        = 3
    ∧ allPendingList (pendingList
        (Node.parallel {} [Node.exec {} 0, Node.exec {} 0, Node.exec {} 0]).childrenN)
      = true :=
  ⟨(lazy_expansion_splices_or_errors [] {} 0 (Node.parallel {} [])
      (encNode (Node.parallel {} [Node.exec {} 0, Node.exec {} 0, Node.exec {} 0]))
      rfl rfl).2.1
      (Node.parallel {} [Node.exec {} 0, Node.exec {} 0, Node.exec {} 0]) rfl,
   rfl, rfl⟩

end ConductoModel
